import Mathlib

/-!
Verification development for the `cpg` pager.

The definitions below are a shallow embedding of the Rust sources:
  * `src/context_finder.rs` — `ContextFinder` and its record-boundary scan;
  * `src/lib.rs`            — the standalone `parse_git_lines` and `CpgError`;
  * `src/main.rs`           — `increment`, `decrement`, `get_lines`, `search`,
                              and the batching loop of `stream_input`.

Machine integers (`usize`) are modelled as `Nat`; `USIZE = 2 ^ 64` is the size
of the `usize` domain.  A `usize` subtraction `a - b` underflows when `b > a`:
that is a panic in the Rust code, modelled here by `checked_sub` returning
`none` and the surrounding function propagating the `none`.  Rust
`slice::get(a..b)` is modelled by `sliceGet`, which returns `none` exactly when
`a > b` or `b > len`.
-/

/-- The size of the `usize` domain (64-bit). -/
def USIZE : Nat := 2 ^ 64

/-- Rust `usize::checked_add`: `none` on overflow of the 64-bit domain. -/
def checked_add (a b : Nat) : Option Nat :=
  if a + b < USIZE then some (a + b) else none

/-- Rust `usize::checked_sub`: `none` on underflow.  Also used to model a plain
`-` on `usize`, whose underflow is a panic: callers propagate the `none`. -/
def checked_sub (a b : Nat) : Option Nat :=
  if b ≤ a then some (a - b) else none

/-- Rust `slice::get(a..b)`: `some` of the sub-slice when `a ≤ b ∧ b ≤ len`,
otherwise `none`. -/
def sliceGet {α : Type} (l : List α) (a b : Nat) : Option (List α) :=
  if a ≤ b ∧ b ≤ l.length then some ((l.drop a).take (b - a)) else none

/-- The default `String` used with `List.getD`. -/
def dflt : String := ""

/-- A character matching the regex class `[0-9a-fA-F]`. -/
def isHexChar (c : Char) : Bool :=
  (decide ('0' ≤ c) && decide (c ≤ '9')) ||
  (decide ('a' ≤ c) && decide (c ≤ 'f')) ||
  (decide ('A' ≤ c) && decide (c ≤ 'F'))

/-- Semantics of the regex literal `^commit [0-9a-fA-F]{40}` used both by
`ContextFinder::new` (context_finder.rs) and by `parse_git_lines` (lib.rs):
the line starts with `commit ` followed by at least 40 hex characters. -/
def commitStart (line : String) : Bool :=
  let cs := line.data
  decide (cs.take 7 = "commit ".data) &&
  decide (40 ≤ (cs.drop 7).length) &&
  ((cs.drop 7).take 40).all isHexChar

/-- Semantics of the regex literal `^(commit [0-9a-fA-F]{40}|diff --git)` used
both by `ContextFinder::new` (context_finder.rs) and by `parse_git_lines`
(lib.rs). -/
def commitEnd (line : String) : Bool :=
  commitStart line || decide (line.data.take 10 = "diff --git".data)

/-- `InputType` from context_finder.rs (single variant). -/
inductive InputType
  | Git

/-- `ContextFinder` from context_finder.rs.  The compiled regexes `start` and
`end` are modelled as boolean line predicates; the field `end` is renamed
`endP` (`end` is a Lean keyword), `start` is renamed `startP` for symmetry. -/
structure ContextFinder where
  startP : String → Bool
  endP : String → Bool

/-- `ContextFinder::new` (context_finder.rs).  The Rust function returns
`Result<Self, CpgError>` but is infallible for the one variant; the `Ok`
wrapper is dropped. -/
def ContextFinder.new : InputType → ContextFinder
  | InputType.Git => ⟨commitStart, commitEnd⟩

/-- The finder for the only input type, as built by `run_app` (main.rs). -/
def gitCF : ContextFinder := ContextFinder.new InputType.Git

/-- `ContextFinder::start_line_num` (context_finder.rs): on
`lines.get(0..start_position)`, enumerate, reverse, find the last line
matching the start pattern, and return its index. -/
def start_line_num (cf : ContextFinder) (lines : List String)
    (start_position : Nat) : Option Nat :=
  let pos := (sliceGet lines 0 start_position).map fun ls =>
    (ls.enum.reverse).find? fun nl => cf.startP nl.2
  (pos.getD none).map Prod.fst

/-- `ContextFinder::end_line_num` (context_finder.rs): on
`lines.get((start_line + 1)..start_position)`, enumerate and find the first
line matching the end pattern, returning its index relative to
`start_line + 1`. -/
def end_line_num (cf : ContextFinder) (lines : List String)
    (start_position start_line : Nat) : Option Nat :=
  let pos := (sliceGet lines (start_line + 1) start_position).map fun ls =>
    ls.enum.find? fun nl => cf.endP nl.2
  (pos.getD none).map Prod.fst

/-- `ContextFinder::find_range` (context_finder.rs).  The returned pair is the
`Range { start, end }` built by the Rust code; as consumed by `get_context`
it denotes the inclusive line range `[start, end]`. -/
def find_range (cf : ContextFinder) (lines : List String)
    (current_position : Nat) : Option (Nat × Nat) :=
  match start_line_num cf lines current_position with
  | some context_start_position =>
    match end_line_num cf lines current_position context_start_position with
    | some context_end_delta =>
      some (context_start_position, context_start_position + context_end_delta)
    | none => some (context_start_position, current_position - 1)
  | none => none

/-- `CpgError` from lib.rs (the `io::Error` payload is dropped). -/
inductive CpgError
  | IoErr

/-- `parse_git_lines` from lib.rs: the standalone variant of the boundary
scan.  It compiles its own regexes from the same two pattern literals, here
shared as `commitStart` / `commitEnd`. -/
def parse_git_lines (lines : List String) (pos : Nat) :
    Except CpgError (Option (Nat × Nat)) :=
  match ((sliceGet lines 0 pos).map fun ls =>
      (ls.enum.reverse).find? fun nl => commitStart nl.2).getD none with
  | some snl =>
    match ((sliceGet lines (snl.1 + 1) pos).map fun ls =>
        ls.enum.find? fun nl => commitEnd nl.2).getD none with
    | some enl => Except.ok (some (snl.1, snl.1 + enl.1))
    | none => Except.ok (some (snl.1, pos - 1))
  | none => Except.ok none

/-- ASCII-only lower-casing of a character, as performed by the
`ascii_case_insensitive` option of the Aho-Corasick matcher (main.rs). -/
def asciiLower (c : Char) : Char :=
  if 'A' ≤ c ∧ c ≤ 'Z' then Char.ofNat (c.toNat + 32) else c

/-- `needle` occurs as a contiguous subsequence of `hay`. -/
def containsSeq (needle : List Char) : List Char → Bool
  | [] => needle.isEmpty
  | c :: rest => needle.isPrefixOf (c :: rest) || containsSeq needle rest

/-- Semantics of `ac.find_iter(line).next().is_some()` for an Aho-Corasick
matcher built from the single pattern `term` with `ascii_case_insensitive`
(main.rs `search`): the term occurs in the line as an ASCII-case-insensitive
substring. -/
def lineMatches (term line : String) : Bool :=
  containsSeq (term.data.map asciiLower) (line.data.map asciiLower)

/-- `SearchDirection` from main.rs. -/
inductive SearchDirection
  | Backwards
  | Forward

/-- `search` from main.rs.  The `Backwards` arm computes the skip count
`all_lines.len() - position`, a plain `usize` subtraction that underflows
(panics) when `position > all_lines.len()`: the panic is modelled by `none`.
The Aho-Corasick builder error is not modelled (it cannot occur for a single
pattern).  The Rust code collects matching indices and returns
`*match_lines.first().unwrap_or(&position)`. -/
def search (term : String) (position : Nat) (all_lines : List String)
    (direction : SearchDirection) : Option Nat :=
  match direction with
  | SearchDirection.Backwards =>
    (checked_sub all_lines.length position).map fun skip_count =>
      let match_lines := ((all_lines.enum.reverse).drop skip_count).filterMap
        fun nl => if lineMatches term nl.2 then some nl.1 else none
      (match_lines.head?).getD position
  | SearchDirection.Forward =>
    let match_lines := (all_lines.enum.drop position).filterMap
      fun nl => if lineMatches term nl.2 then some nl.1 else none
    some ((match_lines.head?).getD position)

/-- `get_lines` from main.rs.  The outer `Option` models the panic of the
plain `usize` subtraction `log_lines.len() - 1` (underflow when the buffer is
empty); the inner `Option` models the `Result`: `none` is `Err(Error::GetLines)`
produced by `lines.ok_or(Error::GetLines)`. -/
def get_lines (log_lines : List String) (position : Nat)
    (vertical_size : Nat) : Option (Option (List String)) :=
  if position + vertical_size < log_lines.length then
    some (sliceGet log_lines position (position + vertical_size))
  else
    (checked_sub log_lines.length 1).map fun last =>
      sliceGet log_lines position last

/-- `decrement` from main.rs: `scroll.checked_sub(count).unwrap_or_default()`. -/
def decrement (scroll count : Nat) : Nat :=
  (checked_sub scroll count).getD 0

/-- `increment` from main.rs.  On `checked_add` overflow it returns
`usize::MAX` directly.  Otherwise it compares against
`max_val - usize::from(vertical_size)`, a plain `usize` subtraction that
underflows (panics) when `vertical_size > max_val`: the panic is modelled by
`none`. -/
def increment (scroll count max_val vertical_size : Nat) : Option Nat :=
  match checked_add scroll count with
  | some pos =>
    (checked_sub max_val vertical_size).map fun bound =>
      if bound < pos then bound else pos
  | none => some (USIZE - 1)

/-- A cursor movement of the interaction loop (main.rs): down / page-down call
`increment`, up / page-up call `decrement`, with `count` equal to `1` or to
the viewport height. -/
inductive Move
  | inc (count : Nat)
  | dec (count : Nat)

/-- One cursor movement applied to the scroll position. -/
def applyMove (max_val vertical_size scroll : Nat) : Move → Option Nat
  | Move.inc c => increment scroll c max_val vertical_size
  | Move.dec c => some (decrement scroll c)

/-- A sequence of cursor movements; `none` once any step panics. -/
def runMoves (max_val vertical_size : Nat) (scroll : Nat) :
    List Move → Option Nat
  | [] => some scroll
  | m :: ms =>
    match applyMove max_val vertical_size scroll m with
    | some s => runMoves max_val vertical_size s ms
    | none => none

/-- The batching loop of `stream_input` (main.rs), as a function from the
line stream (the lines available before end-of-stream) to the list of batches
sent over the channel.  Each iteration reads up to `num_lines` lines; a full
batch is sent with `tx.send(Ok(lines))` and the loop continues; when the
iterator returns `None` (end-of-stream) the closure does `return` — without
sending the lines already read into the current batch.  Read errors are not
modelled.  The guard `0 < num_lines` keeps the model total (for
`num_lines = 0` the Rust loop never terminates, sending empty batches
forever); `run_app` calls this with `num_lines = 4 × height`. -/
def streamBatches (num_lines : Nat) (stream : List String) :
    List (List String) :=
  if _h : 0 < num_lines ∧ num_lines ≤ stream.length then
    stream.take num_lines :: streamBatches num_lines (stream.drop num_lines)
  else []
termination_by stream.length
decreasing_by
  simp only [List.length_drop]
  omega

/-- Concrete line fixtures used by witnesses and counterexamples. -/
def commitA : String := "commit 0123456789abcdef0123456789abcdef01234567"

def lineX : String := "x"

def lineA : String := "a"

def lineB : String := "b"

def lineC : String := "c"

def lineP : String := "p"

def lineQ : String := "q"

def lineZZ : String := "zz"

/-! ### Infrastructure: enumerated-list scans as index predicates -/

theorem enumFrom_drop {α : Type} (l : List α) (n k : Nat) :
    (l.enumFrom n).drop k = (l.drop k).enumFrom (n + k) := by
  induction l generalizing n k with
  | nil => simp
  | cons a l ih =>
    cases k with
    | zero => simp
    | succ k =>
      rw [List.enumFrom_cons, List.drop_succ_cons, List.drop_succ_cons, ih]
      congr 1
      omega

theorem enumFrom_take {α : Type} (l : List α) (n k : Nat) :
    (l.enumFrom n).take k = (l.take k).enumFrom n := by
  induction l generalizing n k with
  | nil => simp
  | cons a l ih =>
    cases k with
    | zero => simp
    | succ k =>
      rw [List.enumFrom_cons, List.take_succ_cons, List.take_succ_cons,
        List.enumFrom_cons, ih]

theorem getD_take_eq {α : Type} (l : List α) (k j : Nat) (d : α) (h : j < k) :
    (l.take k).getD j d = l.getD j d := by
  simp [List.getD_eq_getElem?_getD, List.getElem?_take_of_lt h]

theorem getD_drop_eq {α : Type} (l : List α) (k j : Nat) (d : α) :
    (l.drop k).getD j d = l.getD (k + j) d := by
  simp [List.getD_eq_getElem?_getD, List.getElem?_drop]

theorem enumFind_eq_some_of {α : Type} (q : α → Bool) (d : α) (l : List α)
    (n j : Nat) (hj : j < l.length) (hq : q (l.getD j d) = true)
    (hfirst : ∀ k, k < j → q (l.getD k d) = false) :
    (l.enumFrom n).find? (fun nl => q nl.2) = some (n + j, l.getD j d) := by
  induction l generalizing n j with
  | nil => simp at hj
  | cons a l ih =>
    cases j with
    | zero =>
      rw [List.getD_cons_zero] at hq ⊢
      rw [List.enumFrom_cons, List.find?_cons_of_pos _ (by simpa using hq)]
      simp
    | succ j =>
      have h0 : q a = false := by simpa using hfirst 0 (Nat.succ_pos j)
      rw [List.enumFrom_cons, List.find?_cons_of_neg _ (by simp [h0])]
      have hj' : j < l.length := by simpa using hj
      have hq' : q (l.getD j d) = true := by simpa using hq
      have hfirst' : ∀ k, k < j → q (l.getD k d) = false := fun k hk => by
        simpa using hfirst (k + 1) (by omega)
      rw [List.getD_cons_succ, show n + (j + 1) = (n + 1) + j by omega]
      exact ih (n + 1) j hj' hq' hfirst'

theorem enumFind_of_eq_some {α : Type} (q : α → Bool) (d : α) (l : List α)
    (n : Nat) (r : Nat × α)
    (h : (l.enumFrom n).find? (fun nl => q nl.2) = some r) :
    ∃ j, j < l.length ∧ r = (n + j, l.getD j d) ∧ q (l.getD j d) = true ∧
      ∀ k, k < j → q (l.getD k d) = false := by
  induction l generalizing n with
  | nil => simp at h
  | cons a l ih =>
    rw [List.enumFrom_cons] at h
    by_cases hqa : q a = true
    · rw [List.find?_cons_of_pos _ (by simpa using hqa)] at h
      refine ⟨0, by simp, ?_, by simpa using hqa, by omega⟩
      simpa using h.symm
    · have hqa' : q a = false := by simpa using hqa
      rw [List.find?_cons_of_neg _ (by simp [hqa'])] at h
      obtain ⟨j, hj, hr, hq, hfirst⟩ := ih (n + 1) h
      refine ⟨j + 1, by simpa using hj, ?_, by simpa using hq, ?_⟩
      · rw [List.getD_cons_succ, show n + (j + 1) = (n + 1) + j by omega]
        exact hr
      · intro k hk
        cases k with
        | zero => simpa using hqa'
        | succ k => simpa using hfirst k (by omega)

theorem enumFind_eq_none_iff {α : Type} (q : α → Bool) (d : α) (l : List α)
    (n : Nat) :
    (l.enumFrom n).find? (fun nl => q nl.2) = none ↔
      ∀ j, j < l.length → q (l.getD j d) = false := by
  induction l generalizing n with
  | nil => simp
  | cons a l ih =>
    rw [List.enumFrom_cons]
    by_cases hqa : q a = true
    · rw [List.find?_cons_of_pos _ (by simpa using hqa)]
      constructor
      · intro h
        exact absurd h (by simp)
      · intro h
        exact absurd (by simpa using h 0 (by simp)) (by simp [hqa])
    · have hqa' : q a = false := by simpa using hqa
      rw [List.find?_cons_of_neg _ (by simp [hqa']), ih (n + 1)]
      constructor
      · intro h j hj
        cases j with
        | zero => simpa using hqa'
        | succ j => simpa using h j (by simpa using hj)
      · intro h j hj
        simpa using h (j + 1) (by simpa using hj)

theorem enumRevFind_eq_none_iff {α : Type} (q : α → Bool) (d : α)
    (l : List α) (n : Nat) :
    ((l.enumFrom n).reverse).find? (fun nl => q nl.2) = none ↔
      ∀ j, j < l.length → q (l.getD j d) = false := by
  have hrev : ((l.enumFrom n).reverse).find? (fun nl => q nl.2) = none ↔
      (l.enumFrom n).find? (fun nl => q nl.2) = none := by
    simp [List.find?_eq_none, List.mem_reverse]
  rw [hrev, enumFind_eq_none_iff q d]

theorem enumRevFind_eq_some_of {α : Type} (q : α → Bool) (d : α) (l : List α)
    (n j : Nat) (hj : j < l.length) (hq : q (l.getD j d) = true)
    (hlast : ∀ k, j < k → k < l.length → q (l.getD k d) = false) :
    ((l.enumFrom n).reverse).find? (fun nl => q nl.2) =
      some (n + j, l.getD j d) := by
  induction l generalizing n j with
  | nil => simp at hj
  | cons a l ih =>
    rw [List.enumFrom_cons, List.reverse_cons, List.find?_append]
    cases j with
    | zero =>
      have hnone : ((l.enumFrom (n + 1)).reverse).find?
          (fun nl => q nl.2) = none := by
        rw [enumRevFind_eq_none_iff q d]
        intro k hk
        simpa using hlast (k + 1) (by omega) (by simpa using hk)
      rw [hnone, Option.none_or]
      rw [List.getD_cons_zero] at hq ⊢
      rw [List.find?_cons_of_pos _ (by simpa using hq)]
      simp
    | succ j =>
      have hj' : j < l.length := by simpa using hj
      have hq' : q (l.getD j d) = true := by simpa using hq
      have hlast' : ∀ k, j < k → k < l.length → q (l.getD k d) = false :=
        fun k h1 h2 => by
          simpa using hlast (k + 1) (by omega)
            (by simp only [List.length_cons]; omega)
      rw [ih (n + 1) j hj' hq' hlast', Option.or_some]
      rw [List.getD_cons_succ, show n + (j + 1) = (n + 1) + j by omega]

theorem enumRevFind_of_eq_some {α : Type} (q : α → Bool) (d : α) (l : List α)
    (n : Nat) (r : Nat × α)
    (h : ((l.enumFrom n).reverse).find? (fun nl => q nl.2) = some r) :
    ∃ j, j < l.length ∧ r = (n + j, l.getD j d) ∧ q (l.getD j d) = true ∧
      ∀ k, j < k → k < l.length → q (l.getD k d) = false := by
  induction l generalizing n r with
  | nil => simp at h
  | cons a l ih =>
    rw [List.enumFrom_cons, List.reverse_cons, List.find?_append] at h
    cases hrec : ((l.enumFrom (n + 1)).reverse).find? (fun nl => q nl.2) with
    | some r' =>
      rw [hrec, Option.or_some] at h
      obtain ⟨j, hj, hr, hq, hlast⟩ := ih (n + 1) r' hrec
      refine ⟨j + 1, by simpa using hj, ?_, by simpa using hq, ?_⟩
      · rw [List.getD_cons_succ, show n + (j + 1) = (n + 1) + j by omega]
        rw [← hr]
        exact (Option.some_inj.mp h).symm
      · intro k h1 h2
        cases k with
        | zero => omega
        | succ k => simpa using hlast k (by omega) (by simpa using h2)
    | none =>
      rw [hrec, Option.none_or] at h
      by_cases hqa : q a = true
      · rw [List.find?_cons_of_pos _ (by simpa using hqa)] at h
        refine ⟨0, by simp, by simpa using h.symm, by simpa using hqa, ?_⟩
        intro k h1 h2
        cases k with
        | zero => omega
        | succ k =>
          simpa using (enumRevFind_eq_none_iff q d l (n + 1)).mp hrec k
            (by simpa using h2)
      · rw [List.find?_cons_of_neg _ (by simpa using hqa),
          List.find?_nil] at h
        exact absurd h (by simp)

theorem head?_filterMap_if {α β : Type} (p : α → Bool) (f : α → β)
    (l : List α) :
    (l.filterMap fun x => if p x then some (f x) else none).head? =
      (l.find? p).map f := by
  induction l with
  | nil => rfl
  | cons a l ih =>
    cases hpa : p a <;> simp [List.filterMap_cons, List.find?_cons, hpa, ih]

theorem enum_eq_enumFrom_zero {α : Type} (l : List α) :
    l.enum = l.enumFrom 0 := rfl

/-! ### ContextFinder scan lemmas -/

theorem sliceGet_of_le {α : Type} (l : List α) (a b : Nat) (h1 : a ≤ b)
    (h2 : b ≤ l.length) :
    sliceGet l a b = some ((l.drop a).take (b - a)) := by
  simp [sliceGet, h1, h2]

theorem start_line_num_eq (cf : ContextFinder) (lines : List String)
    (pos : Nat) (hpos : pos ≤ lines.length) :
    start_line_num cf lines pos =
      ((((lines.take pos).enumFrom 0).reverse).find?
        (fun nl => cf.startP nl.2)).map Prod.fst := by
  simp [start_line_num, sliceGet_of_le lines 0 pos (Nat.zero_le _) hpos,
    enum_eq_enumFrom_zero]

theorem start_line_num_eq_some (cf : ContextFinder) (lines : List String)
    (pos s : Nat) (hpos : pos ≤ lines.length) (hs : s < pos)
    (hq : cf.startP (lines.getD s dflt) = true)
    (hlast : ∀ k, s < k → k < pos → cf.startP (lines.getD k dflt) = false) :
    start_line_num cf lines pos = some s := by
  rw [start_line_num_eq cf lines pos hpos]
  have hlen : (lines.take pos).length = pos := by
    simp only [List.length_take]
    omega
  have hjq : cf.startP ((lines.take pos).getD s dflt) = true := by
    rw [getD_take_eq lines pos s dflt hs]
    exact hq
  have hlast' : ∀ k, s < k → k < (lines.take pos).length →
      cf.startP ((lines.take pos).getD k dflt) = false := by
    intro k h1 h2
    rw [hlen] at h2
    rw [getD_take_eq lines pos k dflt h2]
    exact hlast k h1 h2
  rw [enumRevFind_eq_some_of cf.startP dflt (lines.take pos) 0 s
    (by rw [hlen]; exact hs) hjq hlast']
  simp

theorem end_line_num_eq_none (cf : ContextFinder) (lines : List String)
    (pos s : Nat) (h1 : s < pos) (h2 : pos ≤ lines.length)
    (hno : ∀ k, s < k → k < pos → cf.endP (lines.getD k dflt) = false) :
    end_line_num cf lines pos s = none := by
  have hsl : sliceGet lines (s + 1) pos =
      some ((lines.drop (s + 1)).take (pos - (s + 1))) :=
    sliceGet_of_le lines (s + 1) pos (by omega) h2
  simp only [end_line_num, hsl, Option.map_some', Option.getD_some,
    Option.map_eq_none', enum_eq_enumFrom_zero]
  rw [enumFind_eq_none_iff cf.endP dflt]
  intro j hj
  have hjlen : j < pos - (s + 1) := by
    simp only [List.length_take, List.length_drop] at hj
    omega
  rw [getD_take_eq _ _ _ _ hjlen, getD_drop_eq]
  exact hno (s + 1 + j) (by omega) (by omega)

theorem find_range_default_of (cf : ContextFinder) (lines : List String)
    (s pos : Nat) (hpos : pos ≤ lines.length) (hs : s < pos)
    (hq : cf.startP (lines.getD s dflt) = true)
    (hlast : ∀ k, s < k → k < pos → cf.startP (lines.getD k dflt) = false)
    (hnoend : ∀ k, s < k → k < pos → cf.endP (lines.getD k dflt) = false) :
    find_range cf lines pos = some (s, pos - 1) := by
  simp [find_range, start_line_num_eq_some cf lines pos s hpos hs hq hlast,
    end_line_num_eq_none cf lines pos s hs hpos hnoend]

/-! ### Search scan lemmas -/

theorem search_forward_eq (term : String) (lines : List String) (p : Nat) :
    search term p lines SearchDirection.Forward =
      some (((((lines.drop p).enumFrom p).find?
        (fun nl => lineMatches term nl.2)).map Prod.fst).getD p) := by
  simp only [search, enum_eq_enumFrom_zero, enumFrom_drop, Nat.zero_add]
  rw [head?_filterMap_if (fun nl => lineMatches term nl.2) Prod.fst]

theorem search_fwd_of_first (term : String) (lines : List String)
    (p m : Nat) (hp : p ≤ m) (hm : m < lines.length)
    (hmatch : lineMatches term (lines.getD m dflt) = true)
    (hfirst : ∀ k, p ≤ k → k < m →
      lineMatches term (lines.getD k dflt) = false) :
    search term p lines SearchDirection.Forward = some m := by
  rw [search_forward_eq]
  have hj : m - p < (lines.drop p).length := by
    simp only [List.length_drop]
    omega
  have hq : lineMatches term ((lines.drop p).getD (m - p) dflt) = true := by
    rw [getD_drop_eq, show p + (m - p) = m by omega]
    exact hmatch
  have hf : ∀ k, k < m - p →
      lineMatches term ((lines.drop p).getD k dflt) = false := by
    intro k hk
    rw [getD_drop_eq]
    exact hfirst (p + k) (by omega) (by omega)
  rw [enumFind_eq_some_of (lineMatches term) dflt (lines.drop p) p (m - p)
    hj hq hf]
  simp only [Option.map_some', Option.getD_some]
  congr 1
  omega

theorem search_fwd_of_none (term : String) (lines : List String) (p : Nat)
    (hnone : ∀ i, p ≤ i → i < lines.length →
      lineMatches term (lines.getD i dflt) = false) :
    search term p lines SearchDirection.Forward = some p := by
  rw [search_forward_eq]
  have hfind : ((lines.drop p).enumFrom p).find?
      (fun nl => lineMatches term nl.2) = none := by
    rw [enumFind_eq_none_iff (lineMatches term) dflt]
    intro j hj
    have hjl : p + j < lines.length := by
      simp only [List.length_drop] at hj
      omega
    rw [getD_drop_eq]
    exact hnone (p + j) (by omega) hjl
  rw [hfind]
  rfl

theorem search_backward_eq (term : String) (lines : List String) (p : Nat)
    (hp : p ≤ lines.length) :
    search term p lines SearchDirection.Backwards =
      some ((((((lines.take p).enumFrom 0).reverse).find?
        (fun nl => lineMatches term nl.2)).map Prod.fst).getD p) := by
  have hcs : checked_sub lines.length p = some (lines.length - p) := by
    simp [checked_sub, hp]
  have h1 : (lines.enum.reverse).drop (lines.length - p) =
      ((lines.take p).enumFrom 0).reverse := by
    rw [List.drop_reverse]
    congr 1
    rw [enum_eq_enumFrom_zero, List.enumFrom_length,
      show lines.length - (lines.length - p) = p by omega]
    exact enumFrom_take lines 0 p
  simp only [search, hcs, Option.map_some', h1]
  rw [head?_filterMap_if (fun nl => lineMatches term nl.2) Prod.fst]

theorem search_bwd_of_none (term : String) (lines : List String) (p : Nat)
    (hp : p ≤ lines.length)
    (hnone : ∀ k, k < p → lineMatches term (lines.getD k dflt) = false) :
    search term p lines SearchDirection.Backwards = some p := by
  rw [search_backward_eq term lines p hp]
  have hfind : (((lines.take p).enumFrom 0).reverse).find?
      (fun nl => lineMatches term nl.2) = none := by
    rw [enumRevFind_eq_none_iff (lineMatches term) dflt]
    intro j hj
    have hjp : j < p := by
      simp only [List.length_take] at hj
      omega
    rw [getD_take_eq lines p j dflt hjp]
    exact hnone j hjp
  rw [hfind]
  rfl

theorem search_bwd_of_last (term : String) (lines : List String)
    (p m : Nat) (hp : p ≤ lines.length) (hm : m < p)
    (hmatch : lineMatches term (lines.getD m dflt) = true)
    (hlast : ∀ k, m < k → k < p →
      lineMatches term (lines.getD k dflt) = false) :
    search term p lines SearchDirection.Backwards = some m := by
  rw [search_backward_eq term lines p hp]
  have hlen : (lines.take p).length = p := by
    simp only [List.length_take]
    omega
  have hq : lineMatches term ((lines.take p).getD m dflt) = true := by
    rw [getD_take_eq lines p m dflt hm]
    exact hmatch
  have hlast' : ∀ k, m < k → k < (lines.take p).length →
      lineMatches term ((lines.take p).getD k dflt) = false := by
    intro k h1 h2
    rw [hlen] at h2
    rw [getD_take_eq lines p k dflt h2]
    exact hlast k h1 h2
  rw [enumRevFind_eq_some_of (lineMatches term) dflt (lines.take p) 0 m
    (by rw [hlen]; exact hm) hq hlast']
  simp

/-! ### Cursor movement lemmas -/

theorem gitCF_startP (l : String) : gitCF.startP l = commitStart l := rfl

theorem gitCF_endP (l : String) : gitCF.endP l = commitEnd l := rfl

theorem commitStart_imp_commitEnd (l : String)
    (h : commitStart l = true) : commitEnd l = true := by
  simp [commitEnd, h]

theorem decrement_le_self (scroll count : Nat) :
    decrement scroll count ≤ scroll := by
  unfold decrement checked_sub
  split
  · simp only [Option.getD_some]
    omega
  · simp

theorem increment_le (scroll count max_val vertical_size : Nat)
    (hvs : vertical_size ≤ max_val) (hof : max_val + count < USIZE)
    (hs : scroll ≤ max_val - vertical_size) :
    ∃ r, increment scroll count max_val vertical_size = some r ∧
      r ≤ max_val - vertical_size := by
  have hlt : scroll + count < USIZE := by omega
  have hadd : checked_add scroll count = some (scroll + count) := by
    simp [checked_add, hlt]
  have hsub : checked_sub max_val vertical_size =
      some (max_val - vertical_size) := by
    simp [checked_sub, hvs]
  simp only [increment, hadd, hsub, Option.map_some']
  refine ⟨_, rfl, ?_⟩
  split
  · exact Nat.le_refl _
  · omega

theorem runMoves_le (max_val vertical_size : Nat) (moves : List Move) :
    ∀ scroll, vertical_size ≤ max_val →
    (∀ c, Move.inc c ∈ moves → max_val + c < USIZE) →
    scroll ≤ max_val - vertical_size →
    ∃ r, runMoves max_val vertical_size scroll moves = some r ∧
      r ≤ max_val - vertical_size := by
  induction moves with
  | nil =>
    intro scroll _ _ h3
    exact ⟨scroll, rfl, h3⟩
  | cons m ms ih =>
    intro scroll h1 h2 h3
    cases m with
    | inc c =>
      obtain ⟨r, hr, hrle⟩ := increment_le scroll c max_val vertical_size h1
        (h2 c (by simp)) h3
      obtain ⟨r2, hr2, hrle2⟩ := ih r h1
        (fun c' hc' => h2 c' (List.mem_cons_of_mem _ hc')) hrle
      exact ⟨r2, by simp [runMoves, applyMove, hr, hr2], hrle2⟩
    | dec c =>
      have hd : decrement scroll c ≤ max_val - vertical_size :=
        Nat.le_trans (decrement_le_self scroll c) h3
      obtain ⟨r2, hr2, hrle2⟩ := ih (decrement scroll c) h1
        (fun c' hc' => h2 c' (List.mem_cons_of_mem _ hc')) hd
      exact ⟨r2, by simp [runMoves, applyMove, hr2], hrle2⟩

/-! ### Claim theorems -/

/-- Claim C1, counterexample to the claim as stated.  Take the buffer
`[commitA, lineX, commitA]`: the start-pattern headers are at `h1 = 0` and
`h2 = 2`, with no end-pattern match strictly between them, and
`position = 1` satisfies `h1 < position ≤ h2`.  The claim demands the
boundary `[h1, h2 - 1] = (0, 1)`, but `find_range` returns `(0, 0)`: the
terminator `h2` lies outside the scanned window `[0, position)`, so the
default branch ends the range at `position - 1`, not at `h2 - 1`. -/
theorem find_range_two_records_cex :
    gitCF.startP commitA = true ∧ gitCF.endP lineX = false ∧
    find_range gitCF [commitA, lineX, commitA] 1 = some (0, 0) ∧
    ((0 : Nat), (0 : Nat)) ≠ ((0 : Nat), (1 : Nat)) := by
  decide

/-- Claim C1 (amended): for a buffer containing two records whose
start-pattern headers are at `h1 < h2` (no end-pattern match strictly
between them), `find_range` at any `position` with `h1 < position ≤ h2`
returns the boundary `[h1, position - 1]` — which equals `[h1, h2 - 1]`
exactly when `position = h2`. -/
theorem find_range_two_records (lines : List String) (h1 h2 position : Nat)
    (hlt : h1 < h2) (hlen : h2 < lines.length)
    (hs1 : gitCF.startP (lines.getD h1 dflt) = true)
    (hs2 : gitCF.startP (lines.getD h2 dflt) = true)
    (hmid : ∀ k, h1 < k → k < h2 → gitCF.endP (lines.getD k dflt) = false)
    (hp1 : h1 < position) (hp2 : position ≤ h2) :
    find_range gitCF lines position = some (h1, position - 1) := by
  have hpos : position ≤ lines.length := by omega
  have hlast : ∀ k, h1 < k → k < position →
      gitCF.startP (lines.getD k dflt) = false := by
    intro k hk1 hk2
    by_contra hcon
    have hstrue : gitCF.startP (lines.getD k dflt) = true := by
      simpa using hcon
    have hetrue : commitEnd (lines.getD k dflt) = true :=
      commitStart_imp_commitEnd _ (by rw [← gitCF_startP]; exact hstrue)
    have hef := hmid k hk1 (by omega)
    rw [gitCF_endP] at hef
    rw [hef] at hetrue
    exact Bool.false_ne_true hetrue
  have hnoend : ∀ k, h1 < k → k < position →
      gitCF.endP (lines.getD k dflt) = false :=
    fun k hk1 hk2 => hmid k hk1 (by omega)
  exact find_range_default_of gitCF lines h1 position hpos hp1 hs1 hlast hnoend

/-- Claim C1 witness: at `position = h2 = 2` on `[commitA, lineX, commitA]`
the amended theorem yields the boundary `(0, 1)`. -/
theorem find_range_two_records_witness :
    find_range gitCF [commitA, lineX, commitA] 2 = some (0, 1) :=
  find_range_two_records [commitA, lineX, commitA] 0 2 2 (by decide)
    (by decide) (by decide) (by decide)
    (fun k hk1 hk2 => by
      have hk : k = 1 := by omega
      subst hk
      decide)
    (by decide) (by decide)

/-- Claim C2 (code bug): with batch size `2` and a stream of three lines, the
batching loop of `stream_input` sends only the one full batch
`[lineA, lineB]` and drops `lineC`: on end-of-stream it returns from the
worker closure without sending the partially filled batch, contradicting the
contract that a batch "possibly shorter than `B` at end-of-stream" is still
sent as `Ok(batch)`. -/
theorem streamBatches_eof_drops_tail :
    streamBatches 2 [lineA, lineB, lineC] = [[lineA, lineB]] := by
  rw [streamBatches, dif_pos (by decide), streamBatches, dif_neg (by decide)]
  decide

/-- Claim C3, counterexample to the claim as stated.  With `total_lines = 0`
and `height = 5` (buffer shorter than the viewport), the claim demands that
`increment 0 1 0 5` clamp its target to `min(1, max(0, 0 - 5)) = 0`.
Instead the code evaluates the plain `usize` subtraction
`max_val - vertical_size = 0 - 5`, which underflows: a panic, modelled as
`none` — no clamping to `0` happens. -/
theorem increment_short_buffer_cex : increment 0 1 0 5 = none := by decide

/-- Claim C3 (amended): provided `total_lines ≥ height` and every
increment's count keeps the addition inside the `usize` domain
(`total_lines + count < 2 ^ 64`), any sequence of increment / decrement
moves starting from a cursor within `[0, total_lines − height]` keeps the
cursor within `[0, total_lines − height]` (the lower bound is inherent to
the unsigned domain).  Separately, an addition that would overflow makes
`increment` return `usize::MAX` directly — it is not re-clamped by the
viewport rule. -/
theorem cursor_moves_bounded :
    (∀ max_val vertical_size scroll moves, vertical_size ≤ max_val →
      (∀ c, Move.inc c ∈ moves → max_val + c < USIZE) →
      scroll ≤ max_val - vertical_size →
      ∃ r, runMoves max_val vertical_size scroll moves = some r ∧
        r ≤ max_val - vertical_size) ∧
    (∀ scroll count max_val vertical_size, USIZE ≤ scroll + count →
      increment scroll count max_val vertical_size = some (USIZE - 1)) := by
  constructor
  · intro max_val vertical_size scroll moves h1 h2 h3
    exact runMoves_le max_val vertical_size moves scroll h1 h2 h3
  · intro scroll count max_val vertical_size h
    have hadd : checked_add scroll count = none := by
      simp only [checked_add, ite_eq_right_iff]
      intro hlt
      omega
    simp [increment, hadd]

/-- Claim C3 witness: a concrete move sequence on `total_lines = 10`,
`height = 2` stays within the bound `8`, and a concrete overflowing
increment returns `usize::MAX`. -/
theorem cursor_moves_bounded_witness :
    (∃ r, runMoves 10 2 0 [Move.inc 5, Move.dec 1, Move.inc 100] = some r ∧
      r ≤ 10 - 2) ∧
    increment USIZE 0 10 2 = some (USIZE - 1) := by
  constructor
  · refine cursor_moves_bounded.1 10 2 0 [Move.inc 5, Move.dec 1, Move.inc 100]
      (by decide) ?_ (by decide)
    intro c hc
    simp only [List.mem_cons, List.not_mem_nil, or_false] at hc
    rcases hc with hc | hc | hc
    · cases hc
      decide
    · cases hc
    · cases hc
      decide
  · exact cursor_moves_bounded.2 USIZE 0 10 2 (by simp)

/-- Claim C4, counterexample to the claim as stated.  The claim quantifies
over every buffer, cursor and height; but for buffer `[lineA]`, cursor `1`,
height `1` the short-buffer branch computes `lines.get(1..0)`, which is
`None`, so `get_lines` yields `Err(Error::GetLines)` (the inner `none`)
rather than any slice. -/
theorem get_lines_beyond_end_cex : get_lines [lineA] 1 1 = some none := by
  decide

/-- Claim C4 (amended): if `total_lines > cursor + height` the visible slice
is `[cursor, cursor + height)` of length exactly `height`; otherwise,
provided `cursor < total_lines`, it is `[cursor, total_lines - 1)` of length
`total_lines - cursor - 1` (the last buffered line deliberately excluded);
for `cursor ≥ total_lines` in the short-buffer case the slice lookup fails
with `Error::GetLines`. -/
theorem get_lines_spec (log_lines : List String)
    (position vertical_size : Nat) :
    (position + vertical_size < log_lines.length →
      get_lines log_lines position vertical_size =
        some (some ((log_lines.drop position).take vertical_size)) ∧
      ((log_lines.drop position).take vertical_size).length = vertical_size) ∧
    (log_lines.length ≤ position + vertical_size →
      position < log_lines.length →
      get_lines log_lines position vertical_size =
        some (some ((log_lines.drop position).take
          (log_lines.length - 1 - position))) ∧
      ((log_lines.drop position).take
        (log_lines.length - 1 - position)).length =
        log_lines.length - position - 1) := by
  constructor
  · intro h
    constructor
    · rw [get_lines, if_pos h,
        sliceGet_of_le _ _ _ (Nat.le_add_right _ _) (by omega),
        show position + vertical_size - position = vertical_size by omega]
    · simp only [List.length_take, List.length_drop]
      omega
  · intro h hlt
    have hsub : checked_sub log_lines.length 1 =
        some (log_lines.length - 1) := by
      simp only [checked_sub, if_pos (show 1 ≤ log_lines.length by omega)]
    constructor
    · rw [get_lines, if_neg (by omega), hsub, Option.map_some',
        sliceGet_of_le _ _ _ (by omega) (by omega)]
    · simp only [List.length_take, List.length_drop]
      omega

/-- Claim C4 witness: the full-viewport branch on a 3-line buffer with
height 1, and the short-buffer branch at cursor 2 with height 5 (slice of
length `3 - 2 - 1 = 0`). -/
theorem get_lines_spec_witness :
    get_lines [lineA, lineB, lineC] 0 1 = some (some [lineA]) ∧
    get_lines [lineA, lineB, lineC] 2 5 = some (some []) := by
  have ha := (get_lines_spec [lineA, lineB, lineC] 0 1).1 (by decide)
  have hb := (get_lines_spec [lineA, lineB, lineC] 2 5).2 (by decide)
    (by decide)
  exact ⟨ha.1, hb.1⟩

/-- Claim C5, counterexample to the claim as stated.  The claim quantifies
over every position; for buffer `[commitA]` and `position = 2` the last
start-pattern match strictly before `position` is at `s = 0` and there is no
end-pattern match strictly between, so the claim demands the boundary
`(0, 1)`; but `lines.get(0..2)` on a 1-line buffer is `None`, so
`start_line_num` and hence `find_range` yield `none`. -/
theorem find_range_position_past_buffer_cex :
    gitCF.startP commitA = true ∧ find_range gitCF [commitA] 2 = none := by
  decide

/-- Claim C5 (amended): provided `position ≤ lines.length`, if the last
start-pattern match strictly before `position` is at index `s` and no
end-pattern match occurs strictly between `s` and `position`, `find_range`
returns the boundary `[s, position - 1]`: everything from the record's start
up to but not including the cursor's own line. -/
theorem find_range_no_terminator (cf : ContextFinder) (lines : List String)
    (s position : Nat) (hpos : position ≤ lines.length) (hs : s < position)
    (hstart : cf.startP (lines.getD s dflt) = true)
    (hlastStart : ∀ k, s < k → k < position →
      cf.startP (lines.getD k dflt) = false)
    (hnoEnd : ∀ k, s < k → k < position →
      cf.endP (lines.getD k dflt) = false) :
    find_range cf lines position = some (s, position - 1) :=
  find_range_default_of cf lines s position hpos hs hstart hlastStart hnoEnd

/-- Claim C5 witness: on `[commitA, lineX]` at `position = 2`, the record
header at `0` is unterminated and the boundary is `(0, 1)`. -/
theorem find_range_no_terminator_witness :
    find_range gitCF [commitA, lineX] 2 = some (0, 1) :=
  find_range_no_terminator gitCF [commitA, lineX] 0 2 (by decide) (by decide)
    (by decide)
    (fun k hk1 hk2 => by
      have hk : k = 1 := by omega
      subst hk
      decide)
    (fun k hk1 hk2 => by
      have hk : k = 1 := by omega
      subst hk
      decide)

/-- Claim C6: forward search from `p` scans indices `p, p+1, …, N-1` in
ascending order; if no scanned line matches the query (as an
ASCII-case-insensitive substring, `lineMatches`) it returns `p` unchanged,
and if `m ≥ p` is a match with no match in `[p, m)` it returns `m` — i.e. it
returns the first matching index. -/
theorem search_forward_spec (term : String) (lines : List String) (p : Nat) :
    ((∀ i, p ≤ i → i < lines.length →
        lineMatches term (lines.getD i dflt) = false) →
      search term p lines SearchDirection.Forward = some p) ∧
    (∀ m, p ≤ m → m < lines.length →
      lineMatches term (lines.getD m dflt) = true →
      (∀ k, p ≤ k → k < m → lineMatches term (lines.getD k dflt) = false) →
      search term p lines SearchDirection.Forward = some m) :=
  ⟨fun h => search_fwd_of_none term lines p h,
   fun m h1 h2 h3 h4 => search_fwd_of_first term lines p m h1 h2 h3 h4⟩

/-- Claim C6 witness: searching `lineB` forward from 0 in
`[lineA, lineB]` finds index 1; searching `lineZZ` (matching nowhere)
returns the position unchanged. -/
theorem search_forward_spec_witness :
    search lineB 0 [lineA, lineB] SearchDirection.Forward = some 1 ∧
    search lineZZ 0 [lineA, lineB] SearchDirection.Forward = some 0 := by
  constructor
  · exact (search_forward_spec lineB [lineA, lineB] 0).2 1 (by decide)
      (by decide) (by decide)
      (fun k hk1 hk2 => by
        have hk : k = 0 := by omega
        subst hk
        decide)
  · refine (search_forward_spec lineZZ [lineA, lineB] 0).1 ?_
    intro i hi1 hi2
    have hi : i < 2 := by simpa using hi2
    interval_cases i <;> decide

/-- Claim C7, counterexample to the claim as stated.  In buffer `[lineA]`
the query `lineA` matches at exactly `m = 0`; the claim demands that
backward search from any `p > m` return `m`, but from `p = 2` the skip
count `all_lines.len() - position = 1 - 2` underflows (a panic, modelled as
`none`), so backward search does not return `m`. -/
theorem search_backward_underflow_cex :
    lineMatches lineA lineA = true ∧
    search lineA 2 [lineA] SearchDirection.Backwards = none := by
  decide

/-- Claim C7 (amended): for a query matching at exactly one index `m`,
forward search from any `p ≤ m` returns `m`, and backward search from any
`p` with `m < p ≤ N` returns `m`; backward search scans indices
`p-1, …, 0` strictly before `p` and returns `p` unchanged when no match
exists, again provided `p ≤ N` (for `p > N` the skip-count subtraction
underflows). -/
theorem search_unique_roundtrip (term : String) (lines : List String)
    (m : Nat) (hm : m < lines.length)
    (hmatch : lineMatches term (lines.getD m dflt) = true)
    (huniq : ∀ k, k < lines.length →
      lineMatches term (lines.getD k dflt) = true → k = m) :
    (∀ p, p ≤ m → search term p lines SearchDirection.Forward = some m) ∧
    (∀ p, m < p → p ≤ lines.length →
      search term p lines SearchDirection.Backwards = some m) ∧
    (∀ t p, p ≤ lines.length →
      (∀ k, k < p → lineMatches t (lines.getD k dflt) = false) →
      search t p lines SearchDirection.Backwards = some p) := by
  refine ⟨?_, ?_, ?_⟩
  · intro p hp
    refine search_fwd_of_first term lines p m hp hm hmatch ?_
    intro k hk1 hk2
    by_contra hcon
    have hktrue : lineMatches term (lines.getD k dflt) = true := by
      simpa using hcon
    have := huniq k (by omega) hktrue
    omega
  · intro p hp1 hp2
    refine search_bwd_of_last term lines p m hp2 hp1 hmatch ?_
    intro k hk1 hk2
    by_contra hcon
    have hktrue : lineMatches term (lines.getD k dflt) = true := by
      simpa using hcon
    have := huniq k (by omega) hktrue
    omega
  · intro t p hp hnone
    exact search_bwd_of_none t lines p hp hnone

/-- Claim C7 witness: in `[lineP, lineQ]` the query `lineQ` matches only at
index 1, and backward search from `p = 2` returns 1. -/
theorem search_unique_roundtrip_witness :
    search lineQ 2 [lineP, lineQ] SearchDirection.Backwards = some 1 :=
  (search_unique_roundtrip lineQ [lineP, lineQ] 1 (by decide) (by decide)
    (fun k hk hmat => by
      have h2 : k < 2 := by simpa using hk
      interval_cases k
      · exact absurd hmat (by decide)
      · rfl)).2.1 2 (by decide) (by decide)

/-- Claim C8: for every line buffer (and any pattern pair), `find_range` at
`position = 0` returns `none`: no lines precede position 0 to search for a
start marker. -/
theorem find_range_at_position_zero (cf : ContextFinder)
    (lines : List String) :
    find_range cf lines 0 = none := by
  have hstart : start_line_num cf lines 0 = none := by
    simp [start_line_num, sliceGet]
  simp [find_range, hstart]

/-- Claim C9: the standalone `parse_git_lines` (lib.rs) and
`ContextFinder::find_range` with the Git input type (context_finder.rs)
compute identical results on every buffer and position: `parse_git_lines`
returns `Ok(Some((s, e)))` exactly when `find_range` returns the range
`(s, e)`, and `Ok(None)` exactly when `find_range` returns `none`. -/
theorem parse_git_lines_eq_find_range (lines : List String) (pos : Nat) :
    parse_git_lines lines pos = Except.ok (find_range gitCF lines pos) := by
  have hs : gitCF.startP = commitStart := rfl
  have he : gitCF.endP = commitEnd := rfl
  cases hfind : ((sliceGet lines 0 pos).map fun ls =>
      (ls.enum.reverse).find? fun nl => commitStart nl.2).getD none with
  | none =>
    simp [parse_git_lines, find_range, start_line_num, hs, hfind]
  | some snl =>
    cases hend : ((sliceGet lines (snl.1 + 1) pos).map fun ls =>
        ls.enum.find? fun nl => commitEnd nl.2).getD none with
    | none =>
      simp [parse_git_lines, find_range, start_line_num, end_line_num, hs,
        he, hfind, hend]
    | some enl =>
      simp [parse_git_lines, find_range, start_line_num, end_line_num, hs,
        he, hfind, hend]

/-- Claim C10: the backward skip count `all_lines.len() - position`
underflows unless `position ≤ all_lines.len()`; under that precondition
backward search never panics (returns `some`) and the result is either a
matching index strictly below `position` or `position` itself. -/
theorem search_backward_safe (term : String) (lines : List String)
    (p : Nat) (hp : p ≤ lines.length) :
    ∃ r, search term p lines SearchDirection.Backwards = some r ∧
      (r = p ∨ (r < p ∧ lineMatches term (lines.getD r dflt) = true)) := by
  rw [search_backward_eq term lines p hp]
  cases hfind : (((lines.take p).enumFrom 0).reverse).find?
      (fun nl => lineMatches term nl.2) with
  | none => exact ⟨p, by simp, Or.inl rfl⟩
  | some r' =>
    obtain ⟨j, hj, hr, hq, hlast⟩ :=
      enumRevFind_of_eq_some (lineMatches term) dflt (lines.take p) 0 r'
        hfind
    have hjp : j < p := by
      simp only [List.length_take] at hj
      omega
    have hr1 : r'.1 = j := by
      rw [hr]
      simp
    have hmatchr : lineMatches term (lines.getD r'.1 dflt) = true := by
      rw [hr1, ← getD_take_eq lines p j dflt hjp]
      exact hq
    exact ⟨r'.1, by simp, Or.inr ⟨by rw [hr1]; exact hjp, hmatchr⟩⟩

/-- Claim C10 witness: backward search from `p = 1` in `[lineA]` satisfies
the safety property. -/
theorem search_backward_safe_witness :
    ∃ r, search lineA 1 [lineA] SearchDirection.Backwards = some r ∧
      (r = 1 ∨ (r < 1 ∧ lineMatches lineA ([lineA].getD r dflt) = true)) :=
  search_backward_safe lineA [lineA] 1 (by decide)
